import Mathlib

/-!
# Verification of the chromograph core (chromograph/chromograph.py)

Shallow embedding of the pure parts of `chromograph.py`: constants, the
color table, the UPD region classifier, the per-chromosome compiler, the
exome segment merger, the wiggle decoder, the layout coordinator, the
placeholder-png step, the settings construction and small string helpers.
Numeric values carried as `ℚ` (Python floats) and `ℤ`/`ℕ` (Python ints).
-/

namespace Chromograph

/-- `PADDING = 200000` (chromograph.py line 59). -/
def PADDING : ℤ := 200000

/-- `CHROM_END_POS = 249255000` (line 60). -/
def CHROM_END_POS : ℕ := 249255000

/-- `HEIGHT = 1` (line 61), used as a float by `graph_coordinates`. -/
def HEIGHT : ℚ := 1

/-- `YBASE = 0` (line 62). -/
def YBASE : ℚ := 0

/-- `SPACE = 1` (line 63). -/
def SPACE : ℚ := 1

/-- `IGNORE_GAP = 10000` (line 87); the merger in `plot_exom_coverage`
uses the literal `10000`. -/
def IGNORE_GAP : ℤ := 10000

/-- `WIG_MAX = 70.0` (line 91). -/
def WIG_MAX : ℚ := 70

/-- `CHROMOSOMES` (lines 96-122): the fixed 25-chromosome set. -/
def CHROMOSOMES : List String :=
  ["1", "2", "3", "4", "5", "6", "7", "8", "9", "10", "11", "12", "13",
   "14", "15", "16", "17", "18", "19", "20", "21", "22", "M", "X", "Y"]

/-- The `get_color` dict literal (lines 126-153), as an association list
in source order. -/
def COLOR_TABLE : List (String × String) :=
  [("acen", "#b56666"),
   ("gneg", "#fafafa"),
   ("gpos100", "#121212"),
   ("gpos25", "#666666"),
   ("gpos50", "#606060"),
   ("gpos75", "#2e2e2e"),
   ("gvar", "#777777"),
   ("stalk", "#444444"),
   ("ANTI_UPD", "#509188"),
   ("PB_HETEROZYGOUS", "#35605A"),
   ("PB_HOMOZYGOUS", "#6B818C"),
   ("UNINFORMATIVE", "#FFFFFF"),
   ("UPD_MATERNAL_ORIGIN", "#aa2200"),
   ("UPD_PATERNAL_ORIGIN", "#0044ff"),
   ("HETERODISOMY/DELETION", "#BDB76B"),
   ("ISODISOMY/DELETION", "#FFE4B5"),
   ("MATERNAL", "#aa2200"),
   ("PATERNAL", "#0044ff"),
   ("MATERNAL_LIGHT", "#F48C95"),
   ("PATERNAL_LIGHT", "#6C88FF"),
   ("EXOM_COV", "#FF5965")]

/-- `get_color[k]`: Python dict lookup; `none` models a `KeyError`. -/
def get_color (k : String) : Option String :=
  COLOR_TABLE.lookup k

/-- `_get_tint_color(disomy_type, parent)` (lines 274-284). -/
def _get_tint_color (disomy_type parent : String) : Option String :=
  if disomy_type = "heterodisomy" then get_color (parent ++ "_LIGHT")
  else if disomy_type = "homodisomy/deletion" then get_color "ISODISOMY/DELETION"
  else if disomy_type = "isodisomy/deletion" then get_color "ISODISOMY/DELETION"
  else if disomy_type = "heterodisomy/deletion" then get_color "HETERODISOMY/DELETION"
  else get_color parent

/-- A parsed UPD region record as consumed by `region_to_dict`
(line 343): fields `chr`, `start`, `stop` and the `desc` sub-fields
`origin` and `type` produced by `parse_upd_regions`. -/
structure UpdRegion where
  chr : String
  start : ℤ
  stop : ℤ
  descOrigin : String
  descType : String
  deriving DecidableEq, Repr

/-- The dict returned by `region_to_dict` (lines 355-360): keys `chr`,
`xranges`, `hbar_upper`, `hbar_lower`. -/
structure RegionBar where
  chr : String
  xranges : ℤ × ℤ
  hbar_upper : String
  hbar_lower : String
  deriving DecidableEq, Repr

/-- Python `str.lower()` on the character list of a string (ASCII-faithful). -/
def str_lower (s : String) : String :=
  ⟨s.data.map Char.toLower⟩

/-- `region_to_dict(region)` (lines 343-360). `none` models the
`KeyError` raised when a color key is absent from `get_color`. -/
def region_to_dict (region : UpdRegion) : Option RegionBar :=
  let start := region.start
  let width := region.stop - region.start
  let xranges := (start, width)
  let disomy_type := str_lower region.descType
  let origin := region.descOrigin
  match get_color origin, _get_tint_color disomy_type origin with
  | some color, some upper_color =>
      some { chr := region.chr, xranges := xranges,
             hbar_upper := upper_color, hbar_lower := color }
  | _, _ => none

/-- One entry of the list built by `compile_per_chrom` (line 369):
`{chr, xranges, upper, lower}` with `chr` initially `None`. -/
structure ChromComp where
  chr : Option String
  xranges : List (ℤ × ℤ)
  upper : List String
  lower : List String
  deriving DecidableEq, Repr

/-- One iteration of the loop body of `compile_per_chrom`
(lines 372-391).  `mylist` is carried reversed (head = `mylist[-1]`) so
that appending to the last entry is a head update. -/
def cpc_insert (mylist : List ChromComp) (i : RegionBar) : List ChromComp :=
  match mylist with
  | [] => []
  | last :: restRev =>
    match last.chr with
    | none =>
        { chr := some i.chr,
          xranges := last.xranges ++ [i.xranges],
          upper := last.upper ++ [i.hbar_upper],
          lower := last.lower ++ [i.hbar_lower] } :: restRev
    | some c =>
        if c = i.chr then
          { chr := some c,
            xranges := last.xranges ++ [i.xranges],
            upper := last.upper ++ [i.hbar_upper],
            lower := last.lower ++ [i.hbar_lower] } :: restRev
        else
          { chr := some i.chr,
            xranges := [i.xranges],
            upper := [i.hbar_upper],
            lower := [i.hbar_lower] } :: last :: restRev

/-- `compile_per_chrom(hbar_list)` (lines 363-392): groups consecutive
same-chromosome region dicts into parallel lists. -/
def compile_per_chrom (hbar_list : List RegionBar) : List ChromComp :=
  if hbar_list = [] then []
  else
    (hbar_list.foldl cpc_insert
      [{ chr := none, xranges := [], upper := [], lower := [] }]).reverse

/-- `_rgb_str(color)` (lines 318-323) on a string argument; `none`
models the `ValueError` raised by unpacking an empty string. -/
def _rgb_str (color : String) : Option String :=
  match color.data with
  | [] => none
  | head :: _tail => if head = '#' then some color else some ("#" ++ color)

/-- First occurrence of each element, in order of first appearance. -/
def first_occurrences {α : Type} [DecidableEq α] : List α → List α
  | [] => []
  | k :: ks => k :: (first_occurrences ks).filter (fun x => decide (x ≠ k))

/-! ## Exome segment merger (`plot_exom_coverage`, lines 674-681) -/

/-- One row of the exome coverage bed table (`EXOM_FORMAT`); only the
columns the merger reads are carried.  `stop` is the `end` column. -/
structure ExomRow where
  chrom : String
  start : ℤ
  stop : ℤ
  meanCoverage : ℚ
  deriving DecidableEq, Repr

/-- One row of `dataframe2` in `plot_exom_coverage`: the aggregated
columns `start`, `end` (`stop` here), `sum`, `bar_width`, `bar_height`. -/
structure MergedSegment where
  chrom : String
  start : ℤ
  stop : ℤ
  sum : ℚ
  bar_width : ℤ
  bar_height : ℚ
  deriving DecidableEq, Repr

/-- The run mask (line 676):
`dataframe['start'].sub(dataframe['end'].shift(fill_value=0)).gt(10000).cumsum()`.
Pairs each row with its cumulative count of `start − previous_end > 10000`
flags; the previous end of the first row is the fill value `0`. -/
def exom_mask_aux (prevEnd : ℤ) (acc : ℕ) : List ExomRow → List (ℕ × ExomRow)
  | [] => []
  | r :: rs =>
    let m := if r.start - prevEnd > 10000 then acc + 1 else acc
    (m, r) :: exom_mask_aux r.stop m rs

/-- Aggregation of one `groupby([mask, 'chrom'])` group (lines 677-681):
`start = first`, `end = last`, `sum` of `weight = (end−start)*meanCoverage`,
then `bar_width = end − start + PADDING`,
`bar_height = sum / bar_width` clipped to an upper bound of `80`. -/
def agg_rows (key : ℕ × String) (masked : List (ℕ × ExomRow)) : MergedSegment :=
  let g := (masked.filter
    (fun p => decide (p.1 = key.1 ∧ p.2.chrom = key.2))).map Prod.snd
  let s := (g.head?.elim 0 (fun r => r.start))
  let e := (g.getLast?.elim 0 (fun r => r.stop))
  let wsum := (g.map (fun r => ((r.stop - r.start : ℤ) : ℚ) * r.meanCoverage)).sum
  let bw := e - s + PADDING
  { chrom := key.2, start := s, stop := e, sum := wsum, bar_width := bw,
    bar_height := min (wsum / (bw : ℚ)) 80 }

/-- The segment-merging block of `plot_exom_coverage` (lines 674-681):
drop rows with `meanCoverage < 10.0`, partition by the gap mask, group by
`[mask, 'chrom']` and aggregate.  Groups are emitted in order of first
appearance of their key; pandas sorts by key, which coincides here
whenever each run holds a single chromosome (the mask component is
nondecreasing), and no claim below depends on the emission order. -/
def exom_segments (rows : List ExomRow) : List MergedSegment :=
  let kept := rows.filter (fun r => !decide (r.meanCoverage < 10))
  let masked := exom_mask_aux 0 0 kept
  let keys := first_occurrences (masked.map (fun p => (p.1, p.2.chrom)))
  keys.map (fun k => agg_rows k masked)

/-! ## Wiggle decoder (`wig_to_dataframe`, lines 512-540) -/

/-- One input line of `wig_to_dataframe`, pre-classified by the branch the
source takes on it: `nanLine` is the literal `"NaN\n"` line (value 0);
`value v` is a line `float` parses as `v`; `decl name` is a line that
fails `float` and whose text matches the regex `chrom=(\w*)` with group
`name`; `other` fails both and is ignored. -/
inductive WigLine where
  | nanLine : WigLine
  | value (v : ℚ) : WigLine
  | decl (name : String) : WigLine
  | other : WigLine
  deriving DecidableEq, Repr

/-- One row of the decoded coverage dataframe (`WIG_FORMAT`:
`chrom`, `coverage`, `pos`). -/
structure WigRow where
  chrom : String
  coverage : ℚ
  pos : ℕ
  deriving DecidableEq, Repr

/-- One iteration of the line loop of `wig_to_dataframe` (lines 518-537)
on the state `(chrom, pos, coverage_data)`. -/
def wig_step (step : ℕ) (st : String × ℕ × List WigRow) (line : WigLine) :
    String × ℕ × List WigRow :=
  let chrom := st.1
  let pos := st.2.1
  let acc := st.2.2
  match line with
  | .nanLine =>
      let wig_value : ℚ := 0
      let wig_value := if wig_value < WIG_MAX then wig_value else WIG_MAX
      (chrom, pos + step, acc ++ [{ chrom := chrom, coverage := wig_value, pos := pos }])
  | .value v =>
      let wig_value := if v < WIG_MAX then v else WIG_MAX
      (chrom, pos + step, acc ++ [{ chrom := chrom, coverage := wig_value, pos := pos }])
  | .decl name =>
      (name, 0, acc ++ [{ chrom := chrom, coverage := 0, pos := pos + 1 },
                        { chrom := chrom, coverage := 0, pos := CHROM_END_POS }])
  | .other => (chrom, pos, acc)

/-- `wig_to_dataframe(infile, step, col_format)` (lines 512-540), from the
classified lines of the file: fold the line loop from
`pos = 0`, `chrom = ""` and return the accumulated rows. -/
def wig_to_dataframe (lines : List WigLine) (step : ℕ) : List WigRow :=
  (lines.foldl (wig_step step) ("", 0, [])).2.2

/-- The chromosome groups of a decoded dataframe: its distinct `chrom`
labels (what `groupby("chrom")` groups by). -/
def wig_labels (rows : List WigRow) : List String :=
  first_occurrences (rows.map (fun r => r.chrom))

/-- A wiggle stream in declaration-block form: for each block, one
`chrom=<name>` declaration line followed by that block's value lines. -/
def wig_stream (blocks : List (String × List ℚ)) : List WigLine :=
  blocks.flatMap (fun b => WigLine.decl b.1 :: b.2.map WigLine.value)

/-- The rows a run of value lines appends from position `pos` on: one
clamped data point per line, advancing by `step`. -/
def val_rows (chrom : String) (step : ℕ) : ℕ → List ℚ → List WigRow
  | _, [] => []
  | pos, v :: vs =>
      { chrom := chrom, coverage := if v < WIG_MAX then v else WIG_MAX, pos := pos }
        :: val_rows chrom step (pos + step) vs

/-- The rows `wig_to_dataframe` appends while decoding `wig_stream blocks`
from state `(chrom, pos)`: per block, the two synthetic zero points
against the prior label, then the block's data points from position 0. -/
def stream_rows (step : ℕ) : String → ℕ → List (String × List ℚ) → List WigRow
  | _, _, [] => []
  | chrom, pos, (name, vs) :: rest =>
      { chrom := chrom, coverage := 0, pos := pos + 1 }
        :: { chrom := chrom, coverage := 0, pos := CHROM_END_POS }
        :: (val_rows name step 0 vs ++ stream_rows step name (vs.length * step) rest)

/-! ## Interval table loader (`_read_dataframe`, lines 258-271) -/

/-- One parsed row of a bed table: the `chrom` column (already cast to
string) and the remaining columns, uninterpreted. -/
structure BedRow where
  chrom : String
  rest : List String
  deriving DecidableEq, Repr

/-- Whether Python `int(s)` succeeds on a plain decimal string: an
optional sign followed by at least one digit. -/
def python_int_parses (s : String) : Bool :=
  let core := match s.data with
    | '+' :: t => t
    | '-' :: t => t
    | t => t
  !core.isEmpty && core.all (fun ch => ch.isDigit)

/-- `_is_chr_str(chrom)` (lines 248-255): `"int"` when `int(chrom)`
succeeds, else `"str"`. -/
def _is_chr_str (chrom : String) : String :=
  if python_int_parses chrom then "int" else "str"

/-- `_get_chromosome_list(kind)` (lines 241-245). -/
def _get_chromosome_list (kind : String) : List String :=
  if kind = "str" then CHROMOSOMES.map (fun c => "chr" ++ c) else CHROMOSOMES

/-- Modelled from the spec: `filter_dataframe` is imported from
`chr_utils`, which is not part of this source tree.  Spec 4.1: "Filters
out rows whose chromosome is not in the allow-list (silently dropped —
not an error)". -/
def filter_dataframe (rows : List BedRow) (chromosome_list : List String) :
    List BedRow :=
  rows.filter (fun r => decide (r.chrom ∈ chromosome_list))

/-- Outcome of a loader call: `exited code` models `sys.exit(code)`
(process termination, no return to the caller), `ok v` a normal return. -/
inductive ReadResult (α : Type) where
  | exited (code : ℕ) : ReadResult α
  | ok (v : α) : ReadResult α
  deriving DecidableEq, Repr

/-- `_read_dataframe(filepath, format)` (lines 258-271) applied to the
table parsed from the file: on an empty table it prints a warning and
calls `sys.exit(0)`; otherwise it detects the naming convention from the
first row's `chrom` and filters to the matching allow-list. -/
def _read_dataframe (rows : List BedRow) : ReadResult (List BedRow) :=
  match rows with
  | [] => ReadResult.exited 0
  | r :: _ =>
      ReadResult.ok (filter_dataframe rows (_get_chromosome_list (_is_chr_str r.chrom)))

/-! ## Layout coordinator (`graph_coordinates`, lines 543-560) -/

/-- Python dict assignment `d[k] = v`: overwrite in place when the key is
present, else append (insertion order is preserved). -/
def dict_insert (d : List (String × ℚ)) (k : String) (v : ℚ) :
    List (String × ℚ) :=
  if (d.map Prod.fst).contains k then
    d.map (fun p => if p.1 = k then (k, v) else p)
  else d ++ [(k, v)]

/-- The loop body of `graph_coordinates` (lines 556-559) on the state
`(ybase, chrom_ybase, chrom_centers)`: assign `ybase` and
`ybase + HEIGHT/2` to the chromosome, then `ybase += HEIGHT + SPACE`. -/
def gc_step (st : ℚ × List (String × ℚ) × List (String × ℚ)) (chrom : String) :
    ℚ × List (String × ℚ) × List (String × ℚ) :=
  (st.1 + (HEIGHT + SPACE),
   dict_insert st.2.1 chrom st.1,
   dict_insert st.2.2 chrom (st.1 + HEIGHT / 2))

/-- `graph_coordinates(list_of_chromosomes)` (lines 543-560): returns the
insertion-ordered dicts `chrom_ybase` and `chrom_centers`, starting from
`ybase = YBASE` and empty dicts. -/
def graph_coordinates (list_of_chromosomes : List String) :
    List (String × ℚ) × List (String × ℚ) :=
  let final := list_of_chromosomes.foldl gc_step
    ((YBASE, [], []) : ℚ × List (String × ℚ) × List (String × ℚ))
  (final.2.1, final.2.2)

/-- Specification of the dicts `graph_coordinates` builds on fresh keys:
consecutive `(label, offset)` pairs starting at `y`, advancing by
`HEIGHT + SPACE` per label. -/
def layout_pairs (y : ℚ) : List String → List (String × ℚ)
  | [] => []
  | c :: cs => (c, y) :: layout_pairs (y + (HEIGHT + SPACE)) cs

/-- Rebuild region dicts from the parallel lists of a `compile_per_chrom`
entry (one `RegionBar` per aligned triple). -/
def zip_bars (c : String) : List (ℤ × ℤ) → List String → List String → List RegionBar
  | x :: xs, u :: us, w :: ws => ⟨c, x, u, w⟩ :: zip_bars c xs us ws
  | _, _, _ => []

/-- The items carried by one `compile_per_chrom` entry, as region dicts. -/
def comp_items (e : ChromComp) : List RegionBar :=
  match e.chr with
  | none => []
  | some c => zip_bars c e.xranges e.upper e.lower

/-- Loop invariant of `compile_per_chrom`: `acc` is the reversed
`mylist` (head = `mylist[-1]`) after the region dicts `consumed` have
been inserted.  The lists of every entry stay aligned, adjacent entries
carry distinct labels, the entries concatenate back (in original order)
to `consumed`, and the label-less initial entry survives only while
nothing has been consumed. -/
def cpc_inv (acc : List ChromComp) (consumed : List RegionBar) : Prop :=
  acc ≠ [] ∧
  (∀ e ∈ acc, e.xranges.length = e.upper.length
    ∧ e.xranges.length = e.lower.length) ∧
  List.Chain' (fun a b => a.chr ≠ b.chr) acc ∧
  acc.reverse.flatMap comp_items = consumed ∧
  ((acc = [{ chr := none, xranges := [], upper := [], lower := [] }]
      ∧ consumed = [])
    ∨ ∀ e ∈ acc, e.chr ≠ none)

/-! ## Euploid placeholder step (`print_transparent_pngs`, lines 434-452) -/

/-- Modelled from the spec: `chr_type_format` is imported from
`chr_utils`, which is not part of this source tree.  Spec 4.1 describes
the convention detection: numeric-parseable labels are the bare
convention (`"int"`), otherwise the `"chr"`-prefixed one (`"str"`);
`_is_chr_str` in this file is the same test. -/
def chr_type_format (chrom : String) : String :=
  if python_int_parses chrom then "int" else "str"

/-- `print_transparent_pngs(file, outd, is_printed)` (lines 434-452),
returning the chromosome part of each placeholder filename written, in
loop order.  `none` models the `IndexError` of `is_printed[0]` on an
empty list. -/
def print_transparent_pngs (is_printed : List String) : Option (List String) :=
  match is_printed with
  | [] => none
  | first :: _ =>
    let gene_build := chr_type_format first
    let pfx := if gene_build = "str" then "chr" else ""
    some ((CHROMOSOMES.filter
        (fun c => decide (c ∉ is_printed ∧ ("chr" ++ c) ∉ is_printed))).map
      (fun c => pfx ++ c))

/-! ## Settings construction (`_args_to_dict`, lines 287-303) -/

/-- The settings dict: the keys of `DEFAULT_SETTING` (line 124) plus the
`outd` key that `_args_to_dict` adds (`none` = key absent). -/
structure Settings where
  combine : Bool
  normalize : Bool
  euploid : Bool
  agg_chunk_size : ℕ
  outd : Option String
  deriving DecidableEq, Repr

/-- `DEFAULT_SETTING` (line 124). -/
def DEFAULT_SETTING : Settings :=
  { combine := false, normalize := false, euploid := false,
    agg_chunk_size := 10000, outd := none }

/-- `_args_to_dict(filepath, args, kwargs)` (lines 287-303).  In the
source, `settings = DEFAULT_SETTING` aliases the module-level dict and
every assignment mutates it in place, so the returned dict IS the
module-level dict; this is modelled by passing the module-level value in
explicitly (`glob`) and returning the pair (returned settings, value of
the module-level dict after the call) — both components are the same
record.  `filepath_dirname` stands for `os.path.dirname(filepath)` and
`kwargs_outd` for `kwargs["outd"]`. -/
def _args_to_dict (glob : Settings) (filepath_dirname : String)
    (args : List String) (kwargs_outd : Option String) : Settings × Settings :=
  let settings := { glob with outd := some filepath_dirname }
  let settings :=
    if args.contains "combine" then { settings with combine := true } else settings
  let settings :=
    if args.contains "norm" then { settings with normalize := true } else settings
  let settings :=
    if args.contains "euploid" then { settings with euploid := true } else settings
  let settings :=
    match kwargs_outd with
    | some o => { settings with outd := some o }
    | none => settings
  (settings, settings)

/-! ## Helper lemmas -/

/-- Left cancellation for string append. -/
lemma string_append_left_cancel {p a b : String} (h : p ++ a = p ++ b) : a = b := by
  have hd : (p ++ a).data = (p ++ b).data := by rw [h]
  rw [String.data_append, String.data_append] at hd
  exact String.ext (List.append_cancel_left hd)

end Chromograph

namespace Chromograph

/-! ## Claim theorems -/

/-- C9: for every non-empty input string, `_rgb_str` returns a string
beginning with `'#'` — the input unchanged when it already begins with
`'#'`, otherwise the input prefixed with `'#'` — and `_rgb_str` is
idempotent on its own output. -/
theorem rgb_str_hash_and_idempotent (c : String) (h : c ≠ "") :
    ∃ r, _rgb_str c = some r ∧ r.data.head? = some '#' ∧
      (if c.data.head? = some '#' then r = c else r = "#" ++ c) ∧
      _rgb_str r = some r := by
  have hdata : c.data ≠ [] := by
    intro hnil
    exact h (String.ext hnil)
  obtain ⟨hd, tl, hc⟩ := List.exists_cons_of_ne_nil hdata
  by_cases hh : hd = '#'
  · refine ⟨c, ?_, ?_, ?_, ?_⟩
    · simp [_rgb_str, hc, hh]
    · simp [hc, hh]
    · simp [hc, hh]
    · simp [_rgb_str, hc, hh]
  · have hdat : ("#" ++ c).data = '#' :: c.data := by
      rw [String.data_append]; rfl
    refine ⟨"#" ++ c, ?_, ?_, ?_, ?_⟩
    · simp [_rgb_str, hc, hh]
    · simp [hdat]
    · simp [hc, hh]
    · simp [_rgb_str, hdat]

/-- C9 witness: `_rgb_str` at the concrete input `"123456"`. -/
theorem rgb_str_hash_and_idempotent_witness :
    ∃ r, _rgb_str "123456" = some r ∧ r.data.head? = some '#' ∧
      (if ("123456" : String).data.head? = some '#' then r = "123456"
       else r = "#" ++ "123456") ∧
      _rgb_str r = some r :=
  rgb_str_hash_and_idempotent "123456" (by decide)

/-- C8: the settings-construction step mutates the shared
`DEFAULT_SETTING` object in place: after one invocation that enables
`combine`, a subsequent invocation with no options still observes
`combine = true`, and the shared defaults object is not left unchanged. -/
theorem args_to_dict_mutates_default_setting :
    ((_args_to_dict (_args_to_dict DEFAULT_SETTING "/data" ["combine"] none).2
        "/data" [] none).1.combine = true)
    ∧ (_args_to_dict DEFAULT_SETTING "/data" ["combine"] none).2 ≠ DEFAULT_SETTING := by
  decide

/-- C2 counterexample: for the descriptor `⟨chr "1", start 10, stop 50,
origin "MATERNAL", type "isodisomy/deletion"⟩`, the lower bar color is
the origin color `"#aa2200"`, not the ISODISOMY/DELETION color
`"#FFE4B5"` — so the claim that both bars equal the ISODISOMY/DELETION
color is false. -/
theorem region_to_dict_isodisomy_lower_is_origin_color :
    region_to_dict ⟨"1", 10, 50, "MATERNAL", "isodisomy/deletion"⟩ =
      some ⟨"1", (10, 40), "#FFE4B5", "#aa2200"⟩
    ∧ get_color "ISODISOMY/DELETION" = some "#FFE4B5"
    ∧ ("#aa2200" : String) ≠ "#FFE4B5" := by
  decide

/-- C2 amended: a descriptor with type `"heterodisomy"` and origin
`"MATERNAL"` yields upper color `MATERNAL_LIGHT` and lower color
`MATERNAL`; a descriptor with type `"isodisomy/deletion"` yields upper
color `ISODISOMY/DELETION` regardless of origin, while the lower color is
the origin's base color. -/
theorem region_to_dict_color_assignment :
    (∀ region : UpdRegion, str_lower region.descType = "heterodisomy" →
       region.descOrigin = "MATERNAL" →
       ∃ r, region_to_dict region = some r ∧
         get_color "MATERNAL_LIGHT" = some r.hbar_upper ∧
         get_color "MATERNAL" = some r.hbar_lower)
    ∧ (∀ (region : UpdRegion) (c : String),
       str_lower region.descType = "isodisomy/deletion" →
       get_color region.descOrigin = some c →
       ∃ r, region_to_dict region = some r ∧
         get_color "ISODISOMY/DELETION" = some r.hbar_upper ∧
         r.hbar_lower = c) := by
  constructor
  · intro region htype horigin
    refine ⟨⟨region.chr, (region.start, region.stop - region.start),
        "#F48C95", "#aa2200"⟩, ?_, rfl, rfl⟩
    simp only [region_to_dict, htype, horigin]
    rfl
  · intro region c htype horigin
    refine ⟨⟨region.chr, (region.start, region.stop - region.start),
        "#FFE4B5", c⟩, ?_, rfl, rfl⟩
    simp only [region_to_dict, htype, horigin, _get_tint_color]
    norm_num
    rfl

/-- C2 witness: the amended theorem at concrete descriptors. -/
theorem region_to_dict_color_assignment_witness :
    (∃ r, region_to_dict ⟨"1", 10, 50, "MATERNAL", "HETERODISOMY"⟩ = some r ∧
      get_color "MATERNAL_LIGHT" = some r.hbar_upper ∧
      get_color "MATERNAL" = some r.hbar_lower)
    ∧ (∃ r, region_to_dict ⟨"2", 3, 9, "PATERNAL", "isodisomy/deletion"⟩ = some r ∧
      get_color "ISODISOMY/DELETION" = some r.hbar_upper ∧
      r.hbar_lower = "#0044ff") :=
  ⟨region_to_dict_color_assignment.1 _ (by decide) (by decide),
   region_to_dict_color_assignment.2 _ "#0044ff" (by decide) (by decide)⟩

/-- C3 counterexample: on a table with zero rows the loader terminates
the process via `sys.exit(0)` — exit status 0, i.e. success, with no
error value propagated to the caller — rather than failing with a
propagated `EmptyInputError`. -/
theorem read_dataframe_empty_exits_zero :
    _read_dataframe ([] : List BedRow) = ReadResult.exited 0 := by
  rfl

/-- C3 amended: on an empty parsed table the loader prints a warning and
exits the process with status 0 (no return to the caller, no output);
on a non-empty table it returns normally with a subset of the rows,
filtered to the allow-list matching the first row's naming convention. -/
theorem read_dataframe_empty_and_nonempty (rows : List BedRow) :
    (rows = [] → _read_dataframe rows = ReadResult.exited 0)
    ∧ (∀ r rs, rows = r :: rs →
        ∃ kept, _read_dataframe rows = ReadResult.ok kept ∧
          kept.length ≤ rows.length ∧
          ∀ b ∈ kept, b ∈ rows ∧
            b.chrom ∈ _get_chromosome_list (_is_chr_str r.chrom)) := by
  constructor
  · intro h; subst h; rfl
  · intro r rs h
    subst h
    refine ⟨_, rfl, ?_, ?_⟩
    · exact List.length_filter_le _ _
    · intro b hb
      rw [filter_dataframe, List.mem_filter] at hb
      exact ⟨hb.1, by simpa using hb.2⟩

/-- C3 witness: the loader at a concrete empty and a concrete one-row
table. -/
theorem read_dataframe_empty_and_nonempty_witness :
    (_read_dataframe ([] : List BedRow) = ReadResult.exited 0)
    ∧ (∃ kept, _read_dataframe [({ chrom := "1", rest := [] } : BedRow)] =
        ReadResult.ok kept ∧
        kept.length ≤ [({ chrom := "1", rest := [] } : BedRow)].length ∧
        ∀ b ∈ kept, b ∈ [({ chrom := "1", rest := [] } : BedRow)] ∧
          b.chrom ∈ _get_chromosome_list (_is_chr_str "1")) :=
  ⟨(read_dataframe_empty_and_nonempty []).1 rfl,
   (read_dataframe_empty_and_nonempty _).2 { chrom := "1", rest := [] } [] rfl⟩

/-- C1 counterexample: on the claim's own literal example — intervals
`(100, 200, cov 10)` and `(205, 300, cov 20)` on one chromosome, gap 5 ≤
threshold — the code produces one run whose aggregate is
`2900 / 200200` (the weight sum divided by `end − start + PADDING`), not
the width-weighted mean `2900 / 195 ≈ 14.87` (nor the `≈ 16.92` the
claim quotes for that mean). -/
theorem exom_segments_aggregate_counterexample :
    exom_segments [⟨"1", 100, 200, 10⟩, ⟨"1", 205, 300, 20⟩] =
      [⟨"1", 100, 300, 2900, 200200, 2900 / 200200⟩]
    ∧ ((2900 : ℚ) / 200200) ≠ 2900 / 195 := by
  constructor
  · simp only [exom_segments, exom_mask_aux, agg_rows, first_occurrences, PADDING]
    norm_num
  · norm_num

/-- C6 counterexample: merging the single interval
`("1", 100, 200, cov 10)` yields one segment with the interval's own span
but aggregate `1000 / 200100`, not the interval's own coverage `10`. -/
theorem exom_segments_singleton_counterexample :
    exom_segments [⟨"1", 100, 200, 10⟩] =
      [⟨"1", 100, 200, 1000, 200100, 1000 / 200100⟩]
    ∧ ((1000 : ℚ) / 200100) ≠ 10 := by
  constructor
  · simp only [exom_segments, exom_mask_aux, agg_rows, first_occurrences, PADDING]
    norm_num
  · norm_num

/-- C1 amended: rows below the coverage floor 10 are dropped, and the
remaining rows are partitioned into runs, a new run starting exactly when
`current.start − previous.end > 10000`.  For two same-chromosome rows at
or above the floor: gap > threshold gives two runs; gap ≤ threshold gives
one run spanning `[a.start, b.stop]` whose aggregate `bar_height` is
`Σ(width × metric) / (b.stop − a.start + PADDING)` clipped at 80 — the
weight sum divided by the padded run span, not by `Σ(width)`. -/
theorem exom_segments_two_interval_merge (a b : ExomRow)
    (hchrom : b.chrom = a.chrom)
    (ha : ¬ a.meanCoverage < 10) (hb : ¬ b.meanCoverage < 10) :
    (b.start - a.stop > 10000 → (exom_segments [a, b]).length = 2)
    ∧ (¬ b.start - a.stop > 10000 →
        exom_segments [a, b] =
          [⟨a.chrom, a.start, b.stop,
            ((a.stop - a.start : ℤ) : ℚ) * a.meanCoverage
              + ((b.stop - b.start : ℤ) : ℚ) * b.meanCoverage,
            b.stop - a.start + PADDING,
            min ((((a.stop - a.start : ℤ) : ℚ) * a.meanCoverage
                + ((b.stop - b.start : ℤ) : ℚ) * b.meanCoverage)
              / ((b.stop - a.start + PADDING : ℤ) : ℚ)) 80⟩]) := by
  constructor
  · intro hgap
    simp [exom_segments, exom_mask_aux, agg_rows, first_occurrences, ha, hb, hgap, hchrom]
  · intro hgap
    simp [exom_segments, exom_mask_aux, agg_rows, first_occurrences, ha, hb, hgap, hchrom]

/-- C1 witness: the amended theorem at the concrete pairs
`(100,200,10),(20000,30000,20)` (gap 19800 > 10000: two runs) and
`(100,200,10),(205,300,20)` (gap 5 ≤ 10000: one merged run). -/
theorem exom_two_interval_witness :
    (exom_segments [(⟨"1", 100, 200, 10⟩ : ExomRow), ⟨"1", 20000, 30000, 20⟩]).length = 2
    ∧ exom_segments [(⟨"1", 100, 200, 10⟩ : ExomRow), ⟨"1", 205, 300, 20⟩] =
        [⟨"1", 100, 300, ((200 - 100 : ℤ) : ℚ) * 10 + ((300 - 205 : ℤ) : ℚ) * 20,
          300 - 100 + PADDING,
          min ((((200 - 100 : ℤ) : ℚ) * 10 + ((300 - 205 : ℤ) : ℚ) * 20)
            / ((300 - 100 + PADDING : ℤ) : ℚ)) 80⟩] :=
  ⟨(exom_segments_two_interval_merge ⟨"1", 100, 200, 10⟩ ⟨"1", 20000, 30000, 20⟩
      rfl (by norm_num) (by norm_num)).1 (by norm_num),
   (exom_segments_two_interval_merge ⟨"1", 100, 200, 10⟩ ⟨"1", 205, 300, 20⟩
      rfl (by norm_num) (by norm_num)).2 (by norm_num)⟩

/-- C6 amended: merging zero intervals yields zero segments (no error);
merging a single interval at or above the coverage floor yields exactly
one segment spanning that interval's own `[start, end]`, whose aggregate
is `width × metric / (width + PADDING)` clipped at 80 — not the
interval's own coverage metric. -/
theorem exom_segments_empty_and_singleton :
    exom_segments [] = []
    ∧ ∀ r : ExomRow, ¬ r.meanCoverage < 10 →
      exom_segments [r] =
        [⟨r.chrom, r.start, r.stop, ((r.stop - r.start : ℤ) : ℚ) * r.meanCoverage,
          r.stop - r.start + PADDING,
          min ((((r.stop - r.start : ℤ) : ℚ) * r.meanCoverage)
            / ((r.stop - r.start + PADDING : ℤ) : ℚ)) 80⟩] := by
  constructor
  · rfl
  · intro r hr
    simp [exom_segments, exom_mask_aux, agg_rows, first_occurrences, hr]

/-- C6 witness: the amended theorem at the interval `("1",100,200,10)`. -/
theorem exom_singleton_witness :
    exom_segments [(⟨"1", 100, 200, 10⟩ : ExomRow)] =
      [⟨"1", 100, 200, ((200 - 100 : ℤ) : ℚ) * 10, 200 - 100 + PADDING,
        min ((((200 - 100 : ℤ) : ℚ) * 10) / ((200 - 100 + PADDING : ℤ) : ℚ)) 80⟩] :=
  exom_segments_empty_and_singleton.2 ⟨"1", 100, 200, 10⟩ (by norm_num)

/-- C4 counterexample: decoding a stream with one declaration line
(`chrom=1`) followed by one value line yields rows under two labels —
the initial empty label (which receives the two synthetic points) and
`"1"` — not one group; and the group of the declared chromosome `"1"`
ends with the data point `(coverage 5, pos 0)`, not a zero-value point at
the sentinel end position. -/
theorem wig_groups_counterexample :
    wig_to_dataframe [WigLine.decl "1", WigLine.value 5] 5000 =
      [⟨"", 0, 1⟩, ⟨"", 0, CHROM_END_POS⟩, ⟨"1", 5, 0⟩]
    ∧ wig_labels (wig_to_dataframe [WigLine.decl "1", WigLine.value 5] 5000) = ["", "1"]
    ∧ (["", "1"] : List String).length ≠ 1
    ∧ ((wig_to_dataframe [WigLine.decl "1", WigLine.value 5] 5000).filter
        (fun r => decide (r.chrom = "1"))).getLast? = some ⟨"1", 5, 0⟩
    ∧ (5 : ℚ) ≠ 0 ∧ (0 : ℕ) ≠ CHROM_END_POS := by
  refine ⟨?_, ?_, by decide, ?_, by norm_num, by norm_num [CHROM_END_POS]⟩
  · simp [wig_to_dataframe, wig_step, WIG_MAX]
    norm_num
  · simp [wig_to_dataframe, wig_step, WIG_MAX, wig_labels, first_occurrences]
  · simp [wig_to_dataframe, wig_step, WIG_MAX]
    norm_num

/-- Every row of a value-line run carries the current chromosome label. -/
lemma val_rows_chrom (n : String) (step : ℕ) :
    ∀ (pos : ℕ) (vs : List ℚ) (r : WigRow), r ∈ val_rows n step pos vs → r.chrom = n := by
  intro pos vs
  induction vs generalizing pos with
  | nil => intro r hr; simp [val_rows] at hr
  | cons v rest ih =>
    intro r hr
    rcases List.mem_cons.mp hr with rfl | hr
    · rfl
    · exact ih (pos + step) r hr

/-- The labels of a value-line run, as a constant list. -/
lemma val_rows_map_chrom (n : String) (step : ℕ) :
    ∀ (pos : ℕ) (vs : List ℚ),
      (val_rows n step pos vs).map (fun r => r.chrom) = List.replicate vs.length n := by
  intro pos vs
  induction vs generalizing pos with
  | nil => rfl
  | cons v rest ih =>
    simp [val_rows, List.replicate_succ, ih (pos + step)]

/-- The last row of a value-line run: the clamped last value at position
`pos + (count − 1) × step`. -/
lemma val_rows_getLast (n : String) (step : ℕ) :
    ∀ (pos : ℕ) (vs : List ℚ),
      (val_rows n step pos vs).getLast? = vs.getLast?.map (fun v =>
        ⟨n, if v < WIG_MAX then v else WIG_MAX, pos + (vs.length - 1) * step⟩) := by
  intro pos vs
  induction vs generalizing pos with
  | nil => rfl
  | cons v rest ih =>
    cases rest with
    | nil => simp [val_rows]
    | cons w t =>
      rw [show val_rows n step pos (v :: w :: t)
          = ⟨n, if v < WIG_MAX then v else WIG_MAX, pos⟩
            :: val_rows n step (pos + step) (w :: t) from rfl]
      rw [show val_rows n step (pos + step) (w :: t)
          = ⟨n, if w < WIG_MAX then w else WIG_MAX, pos + step⟩
            :: val_rows n step (pos + step + step) t from rfl]
      rw [List.getLast?_cons_cons]
      rw [show (⟨n, if w < WIG_MAX then w else WIG_MAX, pos + step⟩
            :: val_rows n step (pos + step + step) t)
          = val_rows n step (pos + step) (w :: t) from rfl]
      rw [ih (pos + step), List.getLast?_cons_cons]
      cases hg : (w :: t).getLast? with
      | none => rfl
      | some u =>
        simp only [Option.map_some']
        have harith : pos + step + ((w :: t).length - 1) * step
            = pos + ((v :: w :: t).length - 1) * step := by
          simp only [List.length_cons, Nat.add_sub_cancel]
          ring
        rw [harith]

/-- The wiggle loop over a run of value lines: appends the run's data
points and advances the position by one `step` per line. -/
lemma wig_fold_values (step : ℕ) (vs : List ℚ) :
    ∀ (n : String) (pos : ℕ) (acc : List WigRow),
      (vs.map WigLine.value).foldl (wig_step step) (n, pos, acc)
        = (n, pos + vs.length * step, acc ++ val_rows n step pos vs) := by
  induction vs with
  | nil => intro n pos acc; simp [val_rows]
  | cons v rest ih =>
    intro n pos acc
    rw [List.map_cons, List.foldl_cons]
    rw [show wig_step step (n, pos, acc) (WigLine.value v)
        = (n, pos + step,
           acc ++ [⟨n, if v < WIG_MAX then v else WIG_MAX, pos⟩]) from rfl]
    rw [ih n (pos + step)]
    refine Prod.ext rfl (Prod.ext ?_ ?_)
    · show pos + step + rest.length * step = pos + (v :: rest).length * step
      simp only [List.length_cons]
      ring
    · show acc ++ [⟨n, if v < WIG_MAX then v else WIG_MAX, pos⟩]
          ++ val_rows n step (pos + step) rest
        = acc ++ val_rows n step pos (v :: rest)
      rw [show val_rows n step pos (v :: rest)
          = ⟨n, if v < WIG_MAX then v else WIG_MAX, pos⟩
            :: val_rows n step (pos + step) rest from rfl]
      simp

/-- The wiggle loop over a whole block stream appends `stream_rows`. -/
lemma wig_fold_stream (step : ℕ) (blocks : List (String × List ℚ)) :
    ∀ (c : String) (p : ℕ) (acc : List WigRow),
      (wig_stream blocks).foldl (wig_step step) (c, p, acc)
        = ((blocks.foldl (fun _st b => (b.1, b.2.length * step)) (c, p)).1,
           (blocks.foldl (fun _st b => (b.1, b.2.length * step)) (c, p)).2,
           acc ++ stream_rows step c p blocks) := by
  induction blocks with
  | nil => intro c p acc; simp [wig_stream, stream_rows]
  | cons b rest ih =>
    intro c p acc
    obtain ⟨n, vs⟩ := b
    rw [show wig_stream ((n, vs) :: rest)
        = (WigLine.decl n :: vs.map WigLine.value) ++ wig_stream rest from rfl]
    rw [List.foldl_append, List.foldl_cons]
    rw [show wig_step step (c, p, acc) (WigLine.decl n)
        = (n, 0, acc ++ [⟨c, 0, p + 1⟩, ⟨c, 0, CHROM_END_POS⟩]) from rfl]
    rw [wig_fold_values step vs]
    rw [Nat.zero_add, ih n (vs.length * step)]
    rw [show stream_rows step c p ((n, vs) :: rest)
        = ⟨c, 0, p + 1⟩ :: ⟨c, 0, CHROM_END_POS⟩
          :: (val_rows n step 0 vs ++ stream_rows step n (vs.length * step) rest)
        from rfl]
    simp

/-- Decoding a block stream from the initial state yields `stream_rows`. -/
lemma wig_to_dataframe_stream (step : ℕ) (blocks : List (String × List ℚ)) :
    wig_to_dataframe (wig_stream blocks) step = stream_rows step "" 0 blocks := by
  rw [wig_to_dataframe, wig_fold_stream step blocks "" 0 []]
  simp

/-- Every decoded row carries either the entry label or a declared name. -/
lemma stream_rows_chrom_mem (step : ℕ) (blocks : List (String × List ℚ)) :
    ∀ (c : String) (p : ℕ) (r : WigRow), r ∈ stream_rows step c p blocks →
      r.chrom = c ∨ r.chrom ∈ blocks.map Prod.fst := by
  induction blocks with
  | nil => intro c p r hr; simp [stream_rows] at hr
  | cons b rest ih =>
    intro c p r hr
    obtain ⟨n, vs⟩ := b
    rw [show stream_rows step c p ((n, vs) :: rest)
        = ⟨c, 0, p + 1⟩ :: ⟨c, 0, CHROM_END_POS⟩
          :: (val_rows n step 0 vs ++ stream_rows step n (vs.length * step) rest)
        from rfl] at hr
    rcases List.mem_cons.mp hr with rfl | hr
    · left; rfl
    rcases List.mem_cons.mp hr with rfl | hr
    · left; rfl
    rcases List.mem_append.mp hr with hr | hr
    · right
      simp [val_rows_chrom n step 0 vs r hr]
    · rcases ih n (vs.length * step) r hr with h | h
      · right; simp [h]
      · right; simp only [List.map_cons]
        exact List.mem_cons_of_mem _ h

/-- Filtering a label that labels no row yields the empty list. -/
lemma filter_chrom_eq_nil {g : String} {rows : List WigRow}
    (h : ∀ r ∈ rows, r.chrom ≠ g) :
    rows.filter (fun r => decide (r.chrom = g)) = [] := by
  rw [List.filter_eq_nil_iff]
  intro r hr
  simp [h r hr]

/-- Filtering a value-line run for its own label keeps every row. -/
lemma filter_chrom_val_rows_self (n : String) (step : ℕ) (pos : ℕ) (vs : List ℚ) :
    (val_rows n step pos vs).filter (fun r => decide (r.chrom = n))
      = val_rows n step pos vs := by
  rw [List.filter_eq_self]
  intro r hr
  simp [val_rows_chrom n step pos vs r hr]

/-- Filtering a value-line run for another label drops every row. -/
lemma filter_chrom_val_rows_ne {g : String} (n : String) (step : ℕ) (pos : ℕ)
    (vs : List ℚ) (hg : g ≠ n) :
    (val_rows n step pos vs).filter (fun r => decide (r.chrom = g)) = [] :=
  filter_chrom_eq_nil (fun r hr => by
    rw [val_rows_chrom n step pos vs r hr]
    exact fun hh => hg hh.symm)

/-- `first_occurrences` over an append: the right part contributes only
the elements absent from the left part. -/
lemma first_occurrences_append {α : Type} [DecidableEq α] (l1 l2 : List α) :
    first_occurrences (l1 ++ l2)
      = first_occurrences l1
        ++ (first_occurrences l2).filter (fun x => decide (x ∉ l1)) := by
  induction l1 with
  | nil =>
    simp [first_occurrences]
  | cons k ks ih =>
    rw [List.cons_append]
    rw [show first_occurrences (k :: (ks ++ l2))
        = k :: (first_occurrences (ks ++ l2)).filter (fun x => decide (x ≠ k)) from rfl]
    rw [ih]
    rw [show first_occurrences (k :: ks)
        = k :: (first_occurrences ks).filter (fun x => decide (x ≠ k)) from rfl]
    rw [List.cons_append, List.filter_append]
    congr 1
    rw [List.filter_filter]
    congr 1
    apply List.filter_congr
    intro x _
    simp [List.mem_cons, Bool.not_or]

/-- `first_occurrences` of a constant run. -/
lemma first_occurrences_replicate {α : Type} [DecidableEq α] (m : ℕ) (c : α) :
    first_occurrences (List.replicate m c) = if m = 0 then [] else [c] := by
  induction m with
  | zero => rfl
  | succ k ih =>
    rw [List.replicate_succ]
    rw [show first_occurrences (c :: List.replicate k c)
        = c :: (first_occurrences (List.replicate k c)).filter
            (fun x => decide (x ≠ c)) from rfl]
    rw [ih]
    cases k with
    | zero => rfl
    | succ j => simp

/-- Distinct labels of a decoded block stream: the entry label followed
by the declared names, when the names are distinct, differ from the
entry label, and every declaration is followed by at least one value
line. -/
lemma stream_rows_labels (step : ℕ) (blocks : List (String × List ℚ)) :
    ∀ (c : String) (p : ℕ),
      (blocks.map Prod.fst).Nodup → c ∉ blocks.map Prod.fst →
      (∀ b ∈ blocks, b.2 ≠ []) → blocks ≠ [] →
      first_occurrences ((stream_rows step c p blocks).map (fun r => r.chrom))
        = c :: blocks.map Prod.fst := by
  induction blocks with
  | nil => intro c p _ _ _ hne; exact absurd rfl hne
  | cons b rest ih =>
    intro c p hnodup hc hvs _
    obtain ⟨n, vs⟩ := b
    have hvne : vs ≠ [] := hvs (n, vs) (List.mem_cons_self _ _)
    have hvlen : vs.length ≠ 0 := fun h => hvne (List.length_eq_zero.mp h)
    have hcn : c ≠ n := by
      intro h
      exact hc (by simp [h])
    have hnrest : n ∉ rest.map Prod.fst := (List.nodup_cons.mp (by simpa using hnodup)).1
    have hrestnodup : (rest.map Prod.fst).Nodup :=
      (List.nodup_cons.mp (by simpa using hnodup)).2
    rw [show stream_rows step c p ((n, vs) :: rest)
        = ⟨c, 0, p + 1⟩ :: ⟨c, 0, CHROM_END_POS⟩
          :: (val_rows n step 0 vs ++ stream_rows step n (vs.length * step) rest)
        from rfl]
    rw [List.map_cons, List.map_cons, List.map_append, val_rows_map_chrom]
    rw [show ((c :: c :: (List.replicate vs.length n
          ++ (stream_rows step n (vs.length * step) rest).map (fun r => r.chrom))))
        = [c, c] ++ (List.replicate vs.length n
          ++ (stream_rows step n (vs.length * step) rest).map (fun r => r.chrom))
        from rfl]
    rw [first_occurrences_append, first_occurrences_append,
      first_occurrences_replicate, if_neg hvlen]
    have hfo2 : first_occurrences ([c, c] : List String) = [c] := by
      simp [first_occurrences]
    rw [hfo2]
    cases rest with
    | nil =>
      rw [show stream_rows step n (vs.length * step) [] = [] from rfl]
      simp [first_occurrences, hcn.symm]
    | cons r rest2 =>
      rw [ih n (vs.length * step) hrestnodup hnrest
        (fun b hb => hvs b (List.mem_cons_of_mem _ hb)) (by simp)]
      have hfilt1 : ((n :: (r :: rest2).map Prod.fst).filter
          (fun x => decide (x ∉ List.replicate vs.length n)))
          = (r :: rest2).map Prod.fst := by
        rw [List.filter_cons]
        have hn : (decide (n ∉ List.replicate vs.length n)) = false := by
          simp [List.mem_replicate, hvlen]
        rw [hn]
        simp only [Bool.false_eq_true, if_false]
        rw [List.filter_eq_self]
        intro x hx
        have hxn : x ≠ n := fun h => hnrest (h ▸ hx)
        simp [List.mem_replicate, hxn]
      rw [hfilt1]
      have hfilt2 : ((n :: (r :: rest2).map Prod.fst).filter
          (fun x => decide (x ∉ ([c, c] : List String))))
          = n :: (r :: rest2).map Prod.fst := by
        rw [List.filter_eq_self]
        intro x hx
        have hxc : x ≠ c := by
          intro h
          exact hc (by simpa [h] using hx)
        simp [hxc]
      simp only [List.singleton_append]
      rw [hfilt2]
      rfl

/-- The group of the entry label is exactly the two synthetic points
appended by the first declaration line. -/
lemma stream_rows_filter_self (step : ℕ) (blocks : List (String × List ℚ))
    (c : String) (p : ℕ) (hc : c ∉ blocks.map Prod.fst) (hne : blocks ≠ []) :
    (stream_rows step c p blocks).filter (fun r => decide (r.chrom = c))
      = [⟨c, 0, p + 1⟩, ⟨c, 0, CHROM_END_POS⟩] := by
  cases blocks with
  | nil => exact absurd rfl hne
  | cons b rest =>
    obtain ⟨n, vs⟩ := b
    rw [show stream_rows step c p ((n, vs) :: rest)
        = ⟨c, 0, p + 1⟩ :: ⟨c, 0, CHROM_END_POS⟩
          :: (val_rows n step 0 vs ++ stream_rows step n (vs.length * step) rest)
        from rfl]
    rw [List.filter_cons, List.filter_cons]
    have htail : (val_rows n step 0 vs
        ++ stream_rows step n (vs.length * step) rest).filter
          (fun r => decide (r.chrom = c)) = [] := by
      apply filter_chrom_eq_nil
      intro r hr
      rcases List.mem_append.mp hr with hr | hr
      · rw [val_rows_chrom n step 0 vs r hr]
        intro h
        exact hc (by simp [← h])
      · rcases stream_rows_chrom_mem step rest n (vs.length * step) r hr with h | h
        · rw [h]
          intro hh
          exact hc (by simp [← hh])
        · intro hh
          rw [hh] at h
          exact hc (by simp [h])
    rw [htail]
    simp

/-- How each chromosome group of a decoded block stream ends: the entry
label's group and every non-last declared group end with the sentinel
zero point; the last declared group ends with its final clamped data
point. -/
lemma stream_rows_group_endings (step : ℕ) (blocks : List (String × List ℚ)) :
    ∀ (c : String) (p : ℕ),
      (blocks.map Prod.fst).Nodup → c ∉ blocks.map Prod.fst →
      (∀ b ∈ blocks, b.2 ≠ []) → blocks ≠ [] →
      (((stream_rows step c p blocks).filter
          (fun r => decide (r.chrom = c))).getLast?
        = some ⟨c, 0, CHROM_END_POS⟩)
      ∧ (∀ g ∈ (blocks.map Prod.fst).dropLast,
          ((stream_rows step c p blocks).filter
            (fun r => decide (r.chrom = g))).getLast?
          = some ⟨g, 0, CHROM_END_POS⟩)
      ∧ (∀ n vs, blocks.getLast? = some (n, vs) →
          ((stream_rows step c p blocks).filter
            (fun r => decide (r.chrom = n))).getLast?
          = vs.getLast?.map (fun v =>
              ⟨n, if v < WIG_MAX then v else WIG_MAX, (vs.length - 1) * step⟩)) := by
  induction blocks with
  | nil => intro c p _ _ _ hne; exact absurd rfl hne
  | cons b rest ih =>
    intro c p hnodup hc hvs _
    obtain ⟨n, vs⟩ := b
    have hcn : c ≠ n := fun h => hc (by simp [h])
    have hnrest : n ∉ rest.map Prod.fst := (List.nodup_cons.mp (by simpa using hnodup)).1
    have hrestnodup : (rest.map Prod.fst).Nodup :=
      (List.nodup_cons.mp (by simpa using hnodup)).2
    have hrows : stream_rows step c p ((n, vs) :: rest)
        = ⟨c, 0, p + 1⟩ :: ⟨c, 0, CHROM_END_POS⟩
          :: (val_rows n step 0 vs ++ stream_rows step n (vs.length * step) rest)
        := rfl
    refine ⟨?_, ?_, ?_⟩
    · rw [stream_rows_filter_self step ((n, vs) :: rest) c p hc (by simp)]
      rfl
    · intro g hg
      cases rest with
      | nil => simp at hg
      | cons r rest2 =>
        rw [show ((n, vs) :: r :: rest2).map Prod.fst
            = n :: r.1 :: rest2.map Prod.fst from rfl, List.dropLast_cons₂] at hg
        have hgmem : g ∈ ((n, vs) :: r :: rest2).map Prod.fst := by
          rcases List.mem_cons.mp hg with h1 | h1
          · rw [h1]; simp
          · have h2 := (List.dropLast_sublist (r.1 :: rest2.map Prod.fst)).subset h1
            simp only [List.map_cons]
            exact List.mem_cons_of_mem _ h2
        have hgc : g ≠ c := fun h => hc (h ▸ hgmem)
        have hgrows : ((stream_rows step c p ((n, vs) :: r :: rest2)).filter
            (fun x => decide (x.chrom = g)))
            = (val_rows n step 0 vs
                ++ stream_rows step n (vs.length * step) (r :: rest2)).filter
              (fun x => decide (x.chrom = g)) := by
          rw [hrows, List.filter_cons, List.filter_cons]
          have hcg : ¬ (c = g) := fun h => hgc h.symm
          simp [hcg]
        rw [hgrows, List.filter_append]
        rcases List.mem_cons.mp hg with hg1 | hg2
        · rw [hg1]
          rw [filter_chrom_val_rows_self, stream_rows_filter_self step (r :: rest2) n
            (vs.length * step) hnrest (by simp)]
          rw [List.getLast?_append_of_ne_nil _ (by simp)]
          rfl
        · have hgn : g ≠ n := fun h =>
            hnrest (h ▸ ((List.dropLast_sublist (r.1 :: rest2.map Prod.fst)).subset hg2))
          rw [filter_chrom_val_rows_ne n step 0 vs hgn, List.nil_append]
          exact (ih n (vs.length * step) hrestnodup hnrest
            (fun b hb => hvs b (List.mem_cons_of_mem _ hb)) (by simp)).2.1 g
            (by simpa using hg2)
    · intro m ws hlast
      cases rest with
      | nil =>
        rw [show ([((n : String), (vs : List ℚ))] : List (String × List ℚ)).getLast?
            = some (n, vs) from rfl] at hlast
        have hinj := Option.some.inj hlast
        have h1 : n = m := congrArg Prod.fst hinj
        have h2 : vs = ws := congrArg Prod.snd hinj
        rw [← h1, ← h2]
        rw [hrows, List.filter_cons, List.filter_cons]
        have hmc : (decide ((⟨c, 0, p + 1⟩ : WigRow).chrom = n)) = false := by
          simp [hcn]
        rw [show stream_rows step n (vs.length * step) [] = [] from rfl]
        simp only [hmc, Bool.false_eq_true, if_false, List.append_nil]
        rw [filter_chrom_val_rows_self, val_rows_getLast]
        cases hw : vs.getLast? with
        | none => rfl
        | some v => simp
      | cons r rest2 =>
        have hlast2 : (r :: rest2).getLast? = some (m, ws) := by
          rw [show ((n, vs) :: r :: rest2).getLast?
              = (r :: rest2).getLast? from List.getLast?_cons_cons] at hlast
          exact hlast
        have hmrest : m ∈ (r :: rest2).map Prod.fst := by
          obtain ⟨hh, hx⟩ := List.mem_getLast?_eq_getLast (l := r :: rest2)
            (x := (m, ws)) (by rw [hlast2]; rfl)
          exact List.mem_map.mpr ⟨(m, ws), by rw [hx]; exact List.getLast_mem hh, rfl⟩
        have hmn : m ≠ n := fun h => hnrest (h ▸ hmrest)
        have hmc : m ≠ c := by
          intro h
          subst h
          exact hc (by simpa using Or.inr hmrest)
        rw [hrows, List.filter_cons, List.filter_cons, List.filter_append]
        have hdrop : (decide ((⟨c, 0, p + 1⟩ : WigRow).chrom = m)) = false := by
          simp
          exact fun h => hmc h.symm
        simp only [hdrop, Bool.false_eq_true, if_false]
        rw [filter_chrom_val_rows_ne n step 0 vs hmn, List.nil_append]
        exact (ih n (vs.length * step) hrestnodup hnrest
          (fun b hb => hvs b (List.mem_cons_of_mem _ hb)) (by simp)).2.2 m ws hlast2

/-- C4 amended: on a declaration line the decoder appends exactly two
synthetic zero-value points against the prior chromosome label — one at
`running_position + 1` and one at the sentinel `CHROM_END_POS` — then
resets the label to the matched name and the position to 0 (proved for
every state); consequently, for every stream of N declaration lines with
pairwise-distinct non-empty declared names, each followed by at least
one value line, decoding produces exactly N+1 chromosome groups — the
initial empty label followed by the N declared names — every group
except the last declared one ends with a zero-value point at the
sentinel end position, and the last declared group ends with its final
clamped data point instead. -/
theorem wig_decl_mechanics_and_group_count :
    (∀ (step : ℕ) (chrom : String) (pos : ℕ) (acc : List WigRow) (name : String),
      wig_step step (chrom, pos, acc) (WigLine.decl name) =
        (name, 0, acc ++ [⟨chrom, 0, pos + 1⟩, ⟨chrom, 0, CHROM_END_POS⟩]))
    ∧ (∀ (step : ℕ) (blocks : List (String × List ℚ)),
        (blocks.map Prod.fst).Nodup → "" ∉ blocks.map Prod.fst →
        (∀ b ∈ blocks, b.2 ≠ []) → blocks ≠ [] →
        wig_labels (wig_to_dataframe (wig_stream blocks) step)
            = "" :: blocks.map Prod.fst
        ∧ (wig_labels (wig_to_dataframe (wig_stream blocks) step)).length
            = blocks.length + 1
        ∧ (∀ g ∈ (wig_labels (wig_to_dataframe (wig_stream blocks) step)).dropLast,
            ((wig_to_dataframe (wig_stream blocks) step).filter
              (fun r => decide (r.chrom = g))).getLast?
              = some ⟨g, 0, CHROM_END_POS⟩)
        ∧ (∀ n vs, blocks.getLast? = some (n, vs) →
            ((wig_to_dataframe (wig_stream blocks) step).filter
              (fun r => decide (r.chrom = n))).getLast?
              = vs.getLast?.map (fun v =>
                  ⟨n, if v < WIG_MAX then v else WIG_MAX, (vs.length - 1) * step⟩))) := by
  refine ⟨fun step chrom pos acc name => rfl, ?_⟩
  intro step blocks hnodup hempty hvs hne
  have hdf := wig_to_dataframe_stream step blocks
  have hlab : wig_labels (wig_to_dataframe (wig_stream blocks) step)
      = "" :: blocks.map Prod.fst := by
    rw [hdf, wig_labels]
    exact stream_rows_labels step blocks "" 0 hnodup hempty hvs hne
  have hend := stream_rows_group_endings step blocks "" 0 hnodup hempty hvs hne
  refine ⟨hlab, by rw [hlab]; simp, ?_, ?_⟩
  · intro g hg
    rw [hlab] at hg
    have hnames : blocks.map Prod.fst ≠ [] := by
      intro h
      cases blocks with
      | nil => exact hne rfl
      | cons b bs => simp at h
    cases hbm : blocks.map Prod.fst with
    | nil => exact absurd hbm hnames
    | cons a as =>
      rw [hbm, List.dropLast_cons₂] at hg
      rcases List.mem_cons.mp hg with hg1 | hg2
      · rw [hg1, hdf]
        exact hend.1
      · rw [hdf]
        exact hend.2.1 g (by rw [hbm]; exact hg2)
  · intro n vs hlast
    rw [hdf]
    exact hend.2.2 n vs hlast

/-- C4 witness: the amended theorem at the concrete two-declaration
stream `chrom=1; 5; chrom=2; 7` with step 5000: three groups
`["", "1", "2"]`, the first two ending at the sentinel, the last
ending with its data point `(7, 0)`. -/
theorem wig_decl_mechanics_and_group_count_witness :
    wig_labels (wig_to_dataframe (wig_stream [("1", [5]), ("2", [7])]) 5000)
        = ["", "1", "2"]
    ∧ ((wig_to_dataframe (wig_stream [("1", [5]), ("2", [7])]) 5000).filter
        (fun r => decide (r.chrom = ""))).getLast? = some ⟨"", 0, CHROM_END_POS⟩
    ∧ ((wig_to_dataframe (wig_stream [("1", [5]), ("2", [7])]) 5000).filter
        (fun r => decide (r.chrom = "1"))).getLast? = some ⟨"1", 0, CHROM_END_POS⟩
    ∧ ((wig_to_dataframe (wig_stream [("1", [5]), ("2", [7])]) 5000).filter
        (fun r => decide (r.chrom = "2"))).getLast? = some ⟨"2", 7, 0⟩ := by
  obtain ⟨hlab, _hlen, hdrop, hlastg⟩ :=
    wig_decl_mechanics_and_group_count.2 5000 [("1", [5]), ("2", [7])]
      (by decide) (by decide) (by decide) (by decide)
  have hlab2 : wig_labels (wig_to_dataframe (wig_stream [("1", [5]), ("2", [7])]) 5000)
      = ["", "1", "2"] := by
    rw [hlab]
    rfl
  refine ⟨hlab2, ?_, ?_, ?_⟩
  · exact hdrop "" (by rw [hlab2]; decide)
  · exact hdrop "1" (by rw [hlab2]; decide)
  · have h2 := hlastg "2" [7] rfl
    rw [h2]
    norm_num [WIG_MAX]

/-- A fresh key is appended by Python dict assignment. -/
lemma dict_insert_of_not_mem {d : List (String × ℚ)} {k : String} {v : ℚ}
    (h : k ∉ d.map Prod.fst) : dict_insert d k v = d ++ [(k, v)] := by
  simp [dict_insert, h]

/-- The `graph_coordinates` loop on labels disjoint from the
accumulated dict keys: appends `layout_pairs` and advances `ybase` by
one `HEIGHT + SPACE` per label. -/
lemma graph_coordinates_foldl (l : List String) :
    l.Nodup → ∀ (y : ℚ) (d1 d2 : List (String × ℚ)),
      (∀ k ∈ l, k ∉ d1.map Prod.fst) → (∀ k ∈ l, k ∉ d2.map Prod.fst) →
      l.foldl gc_step (y, d1, d2)
      = (y + l.length * (HEIGHT + SPACE),
         d1 ++ layout_pairs y l,
         d2 ++ layout_pairs (y + HEIGHT / 2) l) := by
  induction l with
  | nil => intro _ y d1 d2 _ _; simp [layout_pairs]
  | cons c cs ih =>
    intro hnd y d1 d2 h1 h2
    have hc1 : c ∉ d1.map Prod.fst := h1 c (by simp)
    have hc2 : c ∉ d2.map Prod.fst := h2 c (by simp)
    have hcs : c ∉ cs := (List.nodup_cons.mp hnd).1
    rw [List.foldl_cons]
    have hstep : gc_step (y, d1, d2) c
        = (y + (HEIGHT + SPACE), d1 ++ [(c, y)], d2 ++ [(c, y + HEIGHT / 2)]) := by
      simp [gc_step, dict_insert_of_not_mem hc1, dict_insert_of_not_mem hc2]
    rw [hstep]
    rw [ih (List.nodup_cons.mp hnd).2 (y + (HEIGHT + SPACE))
        (d1 ++ [(c, y)]) (d2 ++ [(c, y + HEIGHT / 2)])
        (by
          intro k hk
          simp only [List.map_append, List.mem_append]
          rintro (hk1 | hk1)
          · exact h1 k (List.mem_cons_of_mem c hk) hk1
          · simp at hk1
            exact hcs (hk1 ▸ hk))
        (by
          intro k hk
          simp only [List.map_append, List.mem_append]
          rintro (hk1 | hk1)
          · exact h2 k (List.mem_cons_of_mem c hk) hk1
          · simp at hk1
            exact hcs (hk1 ▸ hk))]
    refine Prod.ext ?_ (Prod.ext ?_ ?_)
    · show y + (HEIGHT + SPACE) + cs.length * (HEIGHT + SPACE)
        = y + (c :: cs).length * (HEIGHT + SPACE)
      push_cast [List.length_cons]
      ring
    · show d1 ++ [(c, y)] ++ layout_pairs (y + (HEIGHT + SPACE)) cs
        = d1 ++ layout_pairs y (c :: cs)
      rw [layout_pairs]
      simp
    · show d2 ++ [(c, y + HEIGHT / 2)]
          ++ layout_pairs (y + (HEIGHT + SPACE) + HEIGHT / 2) cs
        = d2 ++ layout_pairs (y + HEIGHT / 2) (c :: cs)
      have harg : y + (HEIGHT + SPACE) + HEIGHT / 2
          = y + HEIGHT / 2 + (HEIGHT + SPACE) := by ring
      rw [harg, layout_pairs]
      simp

/-- The i-th entry of `layout_pairs y l`. -/
lemma layout_pairs_getElem (l : List String) :
    ∀ (y : ℚ) (i : ℕ), (layout_pairs y l)[i]? =
      l[i]?.map (fun c => (c, y + i * (HEIGHT + SPACE))) := by
  induction l with
  | nil => intro y i; simp [layout_pairs]
  | cons c cs ih =>
    intro y i
    cases i with
    | zero => simp [layout_pairs]
    | succ n =>
      simp only [layout_pairs, List.getElem?_cons_succ, ih (y + (HEIGHT + SPACE)) n]
      cases hcs : cs[n]? with
      | none => rfl
      | some x =>
        have harith : y + (HEIGHT + SPACE) + (n : ℚ) * (HEIGHT + SPACE)
            = y + ((n : ℕ) + 1 : ℕ) * (HEIGHT + SPACE) := by
          push_cast
          ring
        simp [harith]

/-- C5: for every duplicate-free ordered list of chromosome labels, the
i-th label (0-based) receives `base_offset = i × (HEIGHT + SPACE)` in
`chrom_ybase` and `center_offset = base_offset + HEIGHT/2` in
`chrom_centers` (with `HEIGHT = 1`, `SPACE = 1`, `YBASE = 0`); the
function is total, with no error conditions. -/
theorem graph_coordinates_layout (l : List String) (hl : l.Nodup)
    (i : ℕ) (hi : i < l.length) :
    (graph_coordinates l).1[i]? = some (l.get ⟨i, hi⟩, (i : ℚ) * (HEIGHT + SPACE))
    ∧ (graph_coordinates l).2[i]?
        = some (l.get ⟨i, hi⟩, (i : ℚ) * (HEIGHT + SPACE) + HEIGHT / 2) := by
  have hfold := graph_coordinates_foldl l hl YBASE [] [] (by simp) (by simp)
  have h1 : (graph_coordinates l).1 = layout_pairs YBASE l := by
    simp [graph_coordinates, hfold]
  have h2 : (graph_coordinates l).2 = layout_pairs (YBASE + HEIGHT / 2) l := by
    simp [graph_coordinates, hfold]
  rw [h1, h2, layout_pairs_getElem, layout_pairs_getElem,
    List.getElem?_eq_getElem hi]
  constructor
  · have : YBASE + (i : ℚ) * (HEIGHT + SPACE) = (i : ℚ) * (HEIGHT + SPACE) := by
      simp [YBASE]
    simp [this, List.get_eq_getElem]
  · have : YBASE + HEIGHT / 2 + (i : ℚ) * (HEIGHT + SPACE)
        = (i : ℚ) * (HEIGHT + SPACE) + HEIGHT / 2 := by
      simp [YBASE]; ring
    simp [this, List.get_eq_getElem]

/-- C5 witness: for `["A","B","C"]` the label `"C"` (index 2) gets base
offset 4 and center 4.5, as in the claim's instance. -/
theorem graph_coordinates_layout_witness :
    (graph_coordinates ["A", "B", "C"]).1[2]?
      = some ("C", (2 : ℚ) * (HEIGHT + SPACE))
    ∧ (graph_coordinates ["A", "B", "C"]).2[2]?
      = some ("C", (2 : ℚ) * (HEIGHT + SPACE) + HEIGHT / 2) :=
  graph_coordinates_layout ["A", "B", "C"] (by decide) 2 (by decide)

/-- C7: for a non-empty set of already-produced labels, every chromosome
of the fixed 25-chromosome set that is present in neither naming
convention gets exactly one placeholder file, and no placeholder is
written for a chromosome present in either convention. -/
theorem print_transparent_pngs_missing_once (first : String) (rest : List String)
    (c : String) (hc : c ∈ CHROMOSOMES) :
    ∃ written, print_transparent_pngs (first :: rest) = some written ∧
      ((c ∉ first :: rest ∧ ("chr" ++ c) ∉ first :: rest) →
        written.count
          ((if chr_type_format first = "str" then "chr" else "") ++ c) = 1) ∧
      ((c ∈ first :: rest ∨ ("chr" ++ c) ∈ first :: rest) →
        ((if chr_type_format first = "str" then "chr" else "") ++ c) ∉ written) := by
  refine ⟨(CHROMOSOMES.filter
      (fun x => decide (x ∉ first :: rest ∧ ("chr" ++ x) ∉ first :: rest))).map
      (fun x => (if chr_type_format first = "str" then "chr" else "") ++ x),
    rfl, ?_, ?_⟩
  · intro hmiss
    have hinj : Function.Injective
        (fun x => (if chr_type_format first = "str" then "chr" else "") ++ x) :=
      fun x y h => string_append_left_cancel h
    rw [List.count_map_of_injective _ _ hinj]
    have hnodup : (CHROMOSOMES.filter
        (fun x => decide (x ∉ first :: rest ∧ ("chr" ++ x) ∉ first :: rest))).Nodup :=
      (by decide : CHROMOSOMES.Nodup).filter _
    exact List.count_eq_one_of_mem hnodup
      (List.mem_filter.mpr ⟨hc, by simp [hmiss.1, hmiss.2]⟩)
  · intro hmem hinw
    obtain ⟨x, hx, hxe⟩ := List.mem_map.mp hinw
    have hxc : x = c := string_append_left_cancel hxe
    subst hxc
    have hpred := (List.mem_filter.mp hx).2
    simp only [decide_eq_true_eq] at hpred
    rcases hmem with h | h
    · exact hpred.1 h
    · exact hpred.2 h

/-- C7 witness: with the 24 bare-convention labels missing only `"Y"`
already produced, exactly one placeholder is written for `"Y"` and none
for the already-produced `"X"`. -/
theorem print_transparent_pngs_missing_once_witness :
    ∃ written, print_transparent_pngs
        ["1", "2", "3", "4", "5", "6", "7", "8", "9", "10", "11", "12", "13",
         "14", "15", "16", "17", "18", "19", "20", "21", "22", "M", "X"]
      = some written ∧
      written.count ((if chr_type_format "1" = "str" then "chr" else "") ++ "Y") = 1 ∧
      ((if chr_type_format "1" = "str" then "chr" else "") ++ "X") ∉ written := by
  obtain ⟨w, hw, hmiss, _⟩ :=
    print_transparent_pngs_missing_once "1"
      ["2", "3", "4", "5", "6", "7", "8", "9", "10", "11", "12", "13",
       "14", "15", "16", "17", "18", "19", "20", "21", "22", "M", "X"] "Y" (by decide)
  obtain ⟨w2, hw2, _, hpres2⟩ :=
    print_transparent_pngs_missing_once "1"
      ["2", "3", "4", "5", "6", "7", "8", "9", "10", "11", "12", "13",
       "14", "15", "16", "17", "18", "19", "20", "21", "22", "M", "X"] "X" (by decide)
  rw [hw] at hw2
  have hww : w = w2 := Option.some.inj hw2
  subst hww
  exact ⟨w, hw, hmiss (by decide), hpres2 (by decide)⟩

/-- `zip_bars` distributes over appends of aligned lists. -/
lemma zip_bars_append (c : String) (xs xs2 : List (ℤ × ℤ))
    (us us2 ws ws2 : List String)
    (h1 : xs.length = us.length) (h2 : xs.length = ws.length) :
    zip_bars c (xs ++ xs2) (us ++ us2) (ws ++ ws2)
      = zip_bars c xs us ws ++ zip_bars c xs2 us2 ws2 := by
  induction xs generalizing us ws with
  | nil =>
    obtain rfl : us = [] := List.length_eq_zero.mp h1.symm
    obtain rfl : ws = [] := List.length_eq_zero.mp h2.symm
    simp [zip_bars]
  | cons x xt ih =>
    cases us with
    | nil => simp at h1
    | cons u ut =>
      cases ws with
      | nil => simp at h2
      | cons w wt =>
        simp only [List.cons_append, zip_bars, List.append_eq]
        rw [ih ut wt (by simpa using h1) (by simpa using h2)]

/-- On aligned lists, `zip_bars` preserves the length. -/
lemma zip_bars_length (c : String) (xs : List (ℤ × ℤ)) (us ws : List String)
    (h1 : xs.length = us.length) (h2 : xs.length = ws.length) :
    (zip_bars c xs us ws).length = xs.length := by
  induction xs generalizing us ws with
  | nil => simp [zip_bars]
  | cons x xt ih =>
    cases us with
    | nil => simp at h1
    | cons u ut =>
      cases ws with
      | nil => simp at h2
      | cons w wt =>
        simp only [zip_bars, List.length_cons]
        rw [ih ut wt (by simpa using h1) (by simpa using h2)]

/-- One `compile_per_chrom` loop iteration preserves the invariant and
consumes exactly the inserted region dict. -/
lemma cpc_insert_inv {acc : List ChromComp} {consumed : List RegionBar}
    (i : RegionBar) (h : cpc_inv acc consumed) :
    cpc_inv (cpc_insert acc i) (consumed ++ [i]) := by
  obtain ⟨hne, hlen, hchain, hflat, hnone⟩ := h
  cases acc with
  | nil => exact absurd rfl hne
  | cons last restRev =>
    cases hl : last.chr with
    | none =>
      rcases hnone with ⟨hinit, hcons⟩ | hall
      · injection hinit with hlast hrest
        subst hlast
        subst hrest
        subst hcons
        refine ⟨by simp [cpc_insert], ?_, ?_, ?_, Or.inr ?_⟩
        · intro e he
          simp [cpc_insert] at he
          subst he
          simp
        · simp [cpc_insert]
        · rfl
        · intro e he
          simp [cpc_insert] at he
          subst he
          simp
      · exact absurd hl (hall last (List.mem_cons_self _ _))
    | some c =>
      have hall : ∀ e ∈ last :: restRev, e.chr ≠ none := by
        rcases hnone with ⟨hinit, _⟩ | hall
        · injection hinit with hlast _
          rw [hlast] at hl
          simp at hl
        · exact hall
      obtain ⟨hlx, hly⟩ := hlen last (List.mem_cons_self _ _)
      by_cases hcond : c = i.chr
      · have hins : cpc_insert (last :: restRev) i
            = { chr := some c,
                xranges := last.xranges ++ [i.xranges],
                upper := last.upper ++ [i.hbar_upper],
                lower := last.lower ++ [i.hbar_lower] } :: restRev := by
          simp [cpc_insert, hl, hcond]
        rw [hins]
        have hcomp : comp_items
            { chr := some c,
              xranges := last.xranges ++ [i.xranges],
              upper := last.upper ++ [i.hbar_upper],
              lower := last.lower ++ [i.hbar_lower] }
            = comp_items last ++ [i] := by
          simp only [comp_items, hl]
          rw [zip_bars_append c last.xranges [i.xranges] last.upper
            [i.hbar_upper] last.lower [i.hbar_lower] hlx hly]
          subst hcond
          rfl
        refine ⟨by simp, ?_, ?_, ?_, Or.inr ?_⟩
        · intro e he
          rcases List.mem_cons.mp he with rfl | he
          · constructor
            · simp [hlx]
            · simp [hly]
          · exact hlen e (List.mem_cons_of_mem _ he)
        · cases restRev with
          | nil => exact List.chain'_singleton _
          | cons b bs =>
            have hcb := List.chain'_cons.mp hchain
            refine List.chain'_cons.mpr ⟨?_, hcb.2⟩
            simpa [hl] using hcb.1
        · rw [List.reverse_cons, List.flatMap_append]
          rw [List.reverse_cons, List.flatMap_append] at hflat
          simp only [List.flatMap_cons, List.flatMap_nil, List.append_nil] at hflat ⊢
          rw [hcomp, ← List.append_assoc, hflat]
        · intro e he
          rcases List.mem_cons.mp he with rfl | he
          · simp
          · exact hall e (List.mem_cons_of_mem _ he)
      · have hins : cpc_insert (last :: restRev) i
            = { chr := some i.chr, xranges := [i.xranges],
                upper := [i.hbar_upper], lower := [i.hbar_lower] }
              :: last :: restRev := by
          simp [cpc_insert, hl, hcond]
        rw [hins]
        refine ⟨by simp, ?_, ?_, ?_, Or.inr ?_⟩
        · intro e he
          rcases List.mem_cons.mp he with rfl | he
          · simp
          · exact hlen e he
        · refine List.chain'_cons.mpr ⟨?_, hchain⟩
          simp [hl]
          intro heq
          exact hcond heq.symm
        · rw [List.reverse_cons, List.flatMap_append]
          simp only [List.flatMap_cons, List.flatMap_nil, List.append_nil]
          rw [hflat]
          rfl
        · intro e he
          rcases List.mem_cons.mp he with rfl | he
          · simp
          · exact hall e he

/-- The `compile_per_chrom` loop over any suffix preserves the invariant. -/
lemma cpc_fold_inv (l : List RegionBar) :
    ∀ (acc : List ChromComp) (consumed : List RegionBar),
      cpc_inv acc consumed → cpc_inv (l.foldl cpc_insert acc) (consumed ++ l) := by
  induction l with
  | nil => intro acc consumed h; simpa using h
  | cons r rs ih =>
    intro acc consumed h
    rw [List.foldl_cons]
    have hres := ih (cpc_insert acc r) (consumed ++ [r]) (cpc_insert_inv r h)
    simpa using hres

/-- C10: for every non-empty input list of region dicts,
`compile_per_chrom` produces entries whose `xranges`, `upper` and
`lower` lists have equal lengths, consecutive entries carry distinct
`chr` labels, the concatenation of the per-entry items equals the input
sequence in order, and the sum of the entries' list lengths equals the
input length. -/
theorem compile_per_chrom_invariants (l : List RegionBar) (hne : l ≠ []) :
    (∀ e ∈ compile_per_chrom l,
      e.xranges.length = e.upper.length ∧ e.xranges.length = e.lower.length)
    ∧ List.Chain' (fun a b => a.chr ≠ b.chr) (compile_per_chrom l)
    ∧ (compile_per_chrom l).flatMap comp_items = l
    ∧ ((compile_per_chrom l).map (fun e => e.xranges.length)).sum = l.length := by
  have hinit : cpc_inv
      [{ chr := none, xranges := [], upper := [], lower := [] }] [] := by
    refine ⟨by simp, ?_, ?_, rfl, Or.inl ⟨rfl, rfl⟩⟩
    · intro e he
      simp at he
      subst he
      simp
    · simp
  have hinv := cpc_fold_inv l _ _ hinit
  simp only [List.nil_append] at hinv
  obtain ⟨hne2, hlen, hchain, hflat, hnone⟩ := hinv
  have hcc : compile_per_chrom l
      = (l.foldl cpc_insert
          [{ chr := none, xranges := [], upper := [], lower := [] }]).reverse := by
    simp [compile_per_chrom, hne]
  have hall : ∀ e ∈ l.foldl cpc_insert
      [{ chr := none, xranges := [], upper := [], lower := [] }], e.chr ≠ none := by
    rcases hnone with ⟨_, hc⟩ | hall
    · exact absurd hc hne
    · exact hall
  rw [hcc]
  refine ⟨?_, ?_, hflat, ?_⟩
  · intro e he
    exact hlen e (List.mem_reverse.mp he)
  · rw [List.chain'_reverse]
    exact hchain.imp (fun a b hab hh => hab hh.symm)
  · have hlen2 : ∀ e ∈ (l.foldl cpc_insert
        [{ chr := none, xranges := [], upper := [], lower := [] }]).reverse,
        (fun e => e.xranges.length) e = (fun e => (comp_items e).length) e := by
      intro e he
      have hme := List.mem_reverse.mp he
      obtain ⟨h1, h2⟩ := hlen e hme
      have hch := hall e hme
      cases hc : e.chr with
      | none => exact absurd hc hch
      | some c =>
        simp [comp_items, hc, zip_bars_length c _ _ _ h1 h2]
    have hlf := List.length_flatMap
      (l.foldl cpc_insert
        [{ chr := none, xranges := [], upper := [], lower := [] }]).reverse comp_items
    rw [List.map_congr_left hlen2,
      show (fun (e : ChromComp) => (comp_items e).length)
          = (List.length ∘ comp_items) from rfl, ← hlf, hflat]

/-- C10 witness: the invariants at a concrete three-region input with
two chromosomes. -/
theorem compile_per_chrom_invariants_witness :
    (∀ e ∈ compile_per_chrom
        [⟨"1", (0, 5), "u1", "l1"⟩, ⟨"1", (7, 2), "u2", "l2"⟩, ⟨"2", (1, 1), "u3", "l3"⟩],
      e.xranges.length = e.upper.length ∧ e.xranges.length = e.lower.length)
    ∧ List.Chain' (fun a b => a.chr ≠ b.chr) (compile_per_chrom
        [⟨"1", (0, 5), "u1", "l1"⟩, ⟨"1", (7, 2), "u2", "l2"⟩, ⟨"2", (1, 1), "u3", "l3"⟩])
    ∧ (compile_per_chrom
        [⟨"1", (0, 5), "u1", "l1"⟩, ⟨"1", (7, 2), "u2", "l2"⟩,
         ⟨"2", (1, 1), "u3", "l3"⟩]).flatMap comp_items
      = [⟨"1", (0, 5), "u1", "l1"⟩, ⟨"1", (7, 2), "u2", "l2"⟩, ⟨"2", (1, 1), "u3", "l3"⟩]
    ∧ ((compile_per_chrom
        [⟨"1", (0, 5), "u1", "l1"⟩, ⟨"1", (7, 2), "u2", "l2"⟩,
         ⟨"2", (1, 1), "u3", "l3"⟩]).map (fun e => e.xranges.length)).sum
      = ([⟨"1", (0, 5), "u1", "l1"⟩, ⟨"1", (7, 2), "u2", "l2"⟩,
          ⟨"2", (1, 1), "u3", "l3"⟩] : List RegionBar).length :=
  compile_per_chrom_invariants
    [⟨"1", (0, 5), "u1", "l1"⟩, ⟨"1", (7, 2), "u2", "l2"⟩, ⟨"2", (1, 1), "u3", "l3"⟩]
    (by decide)

end Chromograph
